import Mathlib

/-!
Shallow embedding of the keyword-clustering repository
(`src/app.py` and `src/jaccard-score-cli.py`).

Python strings (keywords, category names, pattern texts) are modelled as
lists of characters, Python floats as rationals, Python dicts as
insertion-ordered association lists, and Python sets as lists used only
through membership.  `re.search` is modelled by an executable backtracking
matcher over an AST of the regex fragment the repository uses.
-/

open scoped List

/-- A keyword of the input list (a Python string). -/
abbrev Kw := List Char

/-- Python `str.lower()` (ASCII case folding, as Lean's `Char.toLower`). -/
def pyLower (s : Kw) : Kw := s.map Char.toLower

/-- The synthetic unassigned basket name, `'Other'` in both source files. -/
def otherName : Kw := "Other".data

/-- Abstract syntax of the `re` pattern fragment the repository uses:
literal characters, `.`, concatenation, alternation, `*`, and negative
lookahead `(?!...)`. -/
inductive Regex where
  | eps
  | char (c : Char)
  | dot
  | seq (a b : Regex)
  | alt (a b : Regex)
  | star (r : Regex)
  | nlk (r : Regex)

/-- One level of the backtracking matcher: all suffixes that can remain after
the pattern matches a prefix of the text.  Characters compare case-folded
(`re.IGNORECASE`); `.` does not match a newline; a negative lookahead
succeeds exactly when its body matches nowhere at the current position;
`star` defers repeated copies of itself to `prev`, the matcher for the next
lower fuel level, and each iteration must consume at least one character. -/
def mtchL (prev : Regex → List Char → List (List Char)) :
    Regex → List Char → List (List Char)
  | .eps, s => [s]
  | .char _, [] => []
  | .char c, a :: s => if c.toLower = a.toLower then [s] else []
  | .dot, [] => []
  | .dot, a :: s => if a = '\n' then [] else [s]
  | .seq r1 r2, s => (mtchL prev r1 s).flatMap (mtchL prev r2)
  | .alt r1 r2, s => mtchL prev r1 s ++ mtchL prev r2 s
  | .nlk r, s => if mtchL prev r s = [] then [s] else []
  | .star r, s => s :: ((mtchL prev r s).filter (· ≠ s)).flatMap (prev (.star r))

/-- Fuel-indexed backtracking matcher.  Every `star` iteration consumes at
least one character, so fuel `length + 1` never runs out. -/
def mtch : Nat → Regex → List Char → List (List Char)
  | 0 => fun _ _ => []
  | f + 1 => mtchL (mtch f)

/-- `re.search(pattern, s, re.IGNORECASE)` as a Boolean: unanchored, the
pattern is tried at every start position of `s`. -/
def reSearch (r : Regex) (s : List Char) : Bool :=
  (List.range (s.length + 1)).any fun i => !(mtch (s.length + 1) r (s.drop i)).isEmpty

/-- A pattern that is a literal string (no regex metacharacters). -/
def lit : List Char → Regex
  | [] => .eps
  | c :: cs => .seq (.char c) (lit cs)

/-- A pandas cell as the repository sees it: a string, or a non-string value
(modelled by an integer). -/
inductive PCell where
  | s (v : List Char)
  | f (n : Int)
deriving DecidableEq

/-- Python `str(cell)`. -/
def pyStr : PCell → List Char
  | .s v => v
  | .f n => (toString n).data

namespace App

/-- A category name (a Python string, the key of the categories dict). -/
abbrev Name := List Char

/-- A rule as `app.py` receives it: a pattern string that either compiles
(`Pat.re`, carrying the AST of the compiled regex) or raises `re.error` when
`re.search` compiles it (`Pat.bad`, carrying the pattern text). -/
inductive Pat where
  | re (r : Regex)
  | bad (src : List Char)

/-- The ordered categories dict: category name to its list of patterns. -/
abbrev Categories := List (Name × List Pat)

/-- The insertion-ordered `defaultdict(list)` of clusters. -/
abbrev Clusters := List (Name × List Kw)

/-- One `re.search` attempt inside the `try`: a malformed pattern raises
`re.error`, carrying the pattern text for the warning. -/
def tryPat (p : Pat) (kwLower : Kw) : Except (List Char) Bool :=
  match p with
  | .re r => .ok (reSearch r kwLower)
  | .bad src => .error src

/-- Whether some rule of a pattern list matches (a malformed rule never
matches). -/
def matchesCat (ps : List Pat) (kwLower : Kw) : Bool :=
  ps.any fun p =>
    match p with
    | .re r => reSearch r kwLower
    | .bad _ => false

/-- The inner pattern loop of `cluster_keywords` (app.py lines 118–127) for
one category: whether some rule matched before the list was exhausted, and
the warnings `(category, pattern)` for malformed rules hit on the way. -/
def scanRules (catName : Name) (kwLower : Kw) : List Pat → Bool × List (Name × List Char)
  | [] => (false, [])
  | p :: ps =>
    match tryPat p kwLower with
    | .ok true => (true, [])
    | .ok false => scanRules catName kwLower ps
    | .error src =>
      let r := scanRules catName kwLower ps
      (r.1, (catName, src) :: r.2)

/-- The category loop of `cluster_keywords` (app.py lines 117–130) for one
keyword: the first category with a matching rule (if any), and the warnings
accumulated until the loop stopped. -/
def scanCategories (kwLower : Kw) : Categories → Option Name × List (Name × List Char)
  | [] => (none, [])
  | (n, ps) :: rest =>
    let r := scanRules n kwLower ps
    if r.1 then (some n, r.2)
    else
      let r' := scanCategories kwLower rest
      (r'.1, r.2 ++ r'.2)

/-- `clusters[name].append(kw)` on the insertion-ordered `defaultdict`. -/
def updateBucket (cs : Clusters) (name : Name) (kw : Kw) : Clusters :=
  match cs with
  | [] => [(name, [kw])]
  | (n, b) :: rest =>
    if n = name then (n, b ++ [kw]) :: rest else (n, b) :: updateBucket rest name kw

/-- The mutable state of the `cluster_keywords` loop: the clusters dict, the
`assigned` set (a list used through membership only), and the warnings
emitted so far. -/
structure ClusterState where
  clusters : Clusters
  assigned : List Kw
  warns : List (Name × List Char)

/-- The body of `for keyword in keywords` in `cluster_keywords` (app.py
lines 113–134): lowercase the keyword, scan categories for a first match,
on a match append to that category's bucket and add to `assigned`, then put
the keyword in `Other` when it is not in `assigned`. -/
def assignStep (cats : Categories) (st : ClusterState) (kw : Kw) : ClusterState :=
  let r := scanCategories (pyLower kw) cats
  let step1 :=
    match r.1 with
    | some n => (updateBucket st.clusters n kw, st.assigned ++ [kw])
    | none => (st.clusters, st.assigned)
  let clusters2 := if kw ∈ step1.2 then step1.1 else updateBucket step1.1 otherName kw
  { clusters := clusters2, assigned := step1.2, warns := st.warns ++ r.2 }

/-- `cluster_keywords` (src/app.py lines 107–136): the clusters dict and the
warnings issued while clustering. -/
def cluster_keywords (keywords : List Kw) (categories : Categories) :
    Clusters × List (Name × List Char) :=
  let st := keywords.foldl (assignStep categories) ⟨[], [], []⟩
  (st.clusters, st.warns)

/-- The contents of the bucket of a given name (empty when absent). -/
def getBucket (cs : Clusters) (name : Name) : List Kw :=
  match cs with
  | [] => []
  | (n, b) :: rest => if n = name then b else getBucket rest name

/-- The basket a keyword is assigned to: the first category with a matching
rule, `Other` otherwise. -/
def assignName (cats : Categories) (kw : Kw) : Name :=
  match (scanCategories (pyLower kw) cats).1 with
  | some n => n
  | none => otherName

/-- All keywords of the clusters dict, in per-basket order. -/
def flattenClusters (cs : Clusters) : List Kw := cs.flatMap Prod.snd

/-- Python `sorted(clusters.items())` (app.py lines 203, 215, 228, 248,
265): items sorted lexicographically; keys are unique in a dict, so this
orders baskets by name.  Modelled by a sort by basket name. -/
def sortedClusters (cs : Clusters) : Clusters :=
  List.insertionSort (fun a b => a.1 ≤ b.1) cs

/-- `summary_data` (src/app.py lines 202–207): one `(basket name, count)`
row per basket, over the alphabetically sorted items. -/
def summary_data (cs : Clusters) : List (Name × Nat) :=
  (sortedClusters cs).map fun nc => (nc.1, nc.2.length)

/-- `csv_data` (src/app.py lines 227–234): one `(basket id, basket name,
keyword)` row per keyword, baskets enumerated in sorted order. -/
def csv_data (cs : Clusters) : List (Nat × Name × Kw) :=
  ((sortedClusters cs).enum).flatMap fun ic => ic.2.2.map fun kw => (ic.1, ic.2.1, kw)

/-- app.py lines 96–98: the keyword column is `df.columns[0]` — the first
column of the uploaded file, whatever its header name; `df[keyword_col]`
then retrieves that same column.  `None` models the pandas error on a frame
with no columns. -/
def load_keywords (df : List (Name × List PCell)) : Option (List PCell) :=
  match df with
  | [] => none
  | c :: _ => some c.2

/-- The loop invariant of `cluster_keywords`: everything in `assigned` was
put there because some category matched it. -/
def Inv (cats : Categories) (st : ClusterState) : Prop :=
  ∀ x ∈ st.assigned, ((scanCategories (pyLower x) cats).1).isSome

end App

namespace Cli

/-- A category or cluster name in the CLI. -/
abbrev Name := List Char

/-- The separator class of `re.split(r'[-\s_]+', ...)`: hyphen, underscore,
or whitespace. -/
def isDelim (c : Char) : Bool :=
  c = '-' || c = '_' || c = ' ' || c = '\t' || c = '\n' || c = '\r' ||
    c = '\x0b' || c = '\x0c'

/-- Tokenization (src/jaccard-score-cli.py lines 174–177): lowercase, strip,
split on runs of separators, drop empty tokens, and collect the tokens as a
set.  (`strip` only removes whitespace, which the split turns into empty
tokens that are dropped anyway.) -/
def tokenize (kw : Kw) : Finset Kw :=
  (((pyLower kw).splitOnP isDelim).filter (· ≠ [])).toFinset

/-- `jaccard_similarity` (src/jaccard-score-cli.py lines 167–170). -/
def jaccard_similarity (tokens1 tokens2 : Finset Kw) : ℚ :=
  let intersection := (tokens1 ∩ tokens2).card
  let union := tokens1.card + tokens2.card - intersection
  if 0 < union then (intersection : ℚ) / union else 0

/-- The keys of the `keyword_tokens` dict in insertion order: a duplicate
keyword string collapses onto its first occurrence (re-inserting a key keeps
its position, and the recomputed token set is identical). -/
def dictKeys (keywords : List Kw) : List Kw :=
  keywords.foldl (fun acc k => if k ∈ acc then acc else acc ++ [k]) []

/-- Whether a cluster accepts a keyword: some member's token set is at least
`t`-similar to the keyword's (jaccard-score-cli.py lines 185–186). -/
def qualifies (t : ℚ) (k : Kw) (c : List Kw) : Bool :=
  c.any fun m => decide (t ≤ jaccard_similarity (tokenize k) (tokenize m))

/-- One iteration of the similarity cluster loop (jaccard-score-cli.py lines
181–192): append the keyword to the first qualifying cluster, else start a
new cluster at the end. -/
def stepSim (t : ℚ) (k : Kw) : List (List Kw) → List (List Kw)
  | [] => [[k]]
  | c :: rest => if qualifies t k c then (c ++ [k]) :: rest else c :: stepSim t k rest

/-- The display name `f'Cluster {i}'`. -/
def clusterName (i : Nat) : Name := "Cluster ".data ++ (toString i).data

/-- `similarity_cluster_keywords` (src/jaccard-score-cli.py lines 161–197):
the greedy cluster list over the deduplicated dict keys, and the
`category_names` dict `{i: f'Cluster {i}'}`. -/
def similarity_cluster_keywords (keywords : List Kw) (similarity_threshold : ℚ) :
    List (List Kw) × List (Nat × Name) :=
  let clusters := (dictKeys keywords).foldl (fun cs k => stepSim similarity_threshold k cs) []
  (clusters, (List.range clusters.length).map fun i => (i, clusterName i))

/-- Whether some pattern of a category matches a keyword
(jaccard-score-cli.py lines 142–147: the inner `for pattern in patterns`
with `break`). -/
def matchesCatR (patterns : List Regex) (kw : Kw) : Bool :=
  patterns.any fun p => reSearch p (pyLower kw)

/-- One category pass over all keywords (the `for keyword in keywords` loop
at jaccard-score-cli.py lines 138–147): keywords already in `assigned` are
skipped, a matching keyword is appended to this category's cluster and to
`assigned`.  Returns the new members in order and the updated `assigned`. -/
def catPass (patterns : List Regex) (keywords assigned : List Kw) : List Kw × List Kw :=
  match keywords with
  | [] => ([], assigned)
  | kw :: rest =>
    if kw ∈ assigned then catPass patterns rest assigned
    else if matchesCatR patterns kw then
      let r := catPass patterns rest (assigned ++ [kw])
      (kw :: r.1, r.2)
    else catPass patterns rest assigned

/-- The outer category loop of `semantic_cluster_keywords`
(jaccard-score-cli.py lines 137–150).  `cluster_id` advances exactly when a
category collected members, so the completed clusters are the non-empty ones
in declaration order; the Boolean records whether the final `cluster_id`
slot holds an (empty) entry of the `defaultdict`, created by the
`if clusters[cluster_id]` check of a category that collected nothing. -/
def semLoop (categories : List (Name × List Regex)) (keywords assigned : List Kw) :
    List (Name × List Kw) × Bool × List Kw :=
  match categories with
  | [] => ([], false, assigned)
  | (n, ps) :: rest =>
    let pass := catPass ps keywords assigned
    let r := semLoop rest keywords pass.2
    if pass.1.isEmpty then (r.1, if rest.isEmpty then true else r.2.1, r.2.2)
    else ((n, pass.1) :: r.1, r.2.1, r.2.2)

/-- The `category_names` dict entries for the completed clusters, ids
assigned in increasing order starting at `k`. -/
def nameTable (named : List (Name × List Kw)) (k : Nat) : List (Nat × Name) :=
  match named with
  | [] => []
  | (n, _) :: rest => (k, n) :: nameTable rest (k + 1)

/-- `semantic_cluster_keywords` (src/jaccard-score-cli.py lines 51–158),
with the hard-coded category table lifted into a parameter.  Returns
`[clusters[i] for i in sorted(clusters.keys())]` and the `category_names`
dict: the non-empty clusters in category order, then the `Other` cluster
when some keyword is unassigned — which overwrites the empty entry left at
the final `cluster_id`, if any; when every keyword is assigned, that empty
unnamed entry (if present) survives into the cluster list. -/
def semantic_cluster_keywords (categories : List (Name × List Regex)) (keywords : List Kw) :
    List (List Kw) × List (Nat × Name) :=
  let r := semLoop categories keywords []
  let other_keywords := keywords.filter fun kw => decide (kw ∉ r.2.2)
  let clusters :=
    r.1.map Prod.snd ++
      (if other_keywords.isEmpty then (if r.2.1 then [[]] else []) else [other_keywords])
  let names :=
    nameTable r.1 0 ++
      (if other_keywords.isEmpty then [] else [(r.1.length, otherName)])
  (clusters, names)

/-- A CLI clustering result as name–members baskets, ids resolved through
the `category_names` dict the way both CLI writers do
(`category_names.get(cluster_id, ...)`). -/
def baskets (out : List (List Kw) × List (Nat × Name)) : List (Name × List Kw) :=
  out.2.map fun p => (p.2, out.1.getD p.1 [])

/-- A Python exception of the CLI keyword extraction. -/
inductive PyErr where
  | indexError
  | attributeError
deriving DecidableEq

/-- jaccard-score-cli.py lines 21–24: `data[keyword_col].iloc[0]` raises
`IndexError` on an empty column; otherwise, when the first value is a
string the column is used as is, and only otherwise is every value passed
through `str`. -/
def extract_keywords (col : List PCell) : Except PyErr (List PCell) :=
  match col with
  | [] => .error .indexError
  | c :: _ =>
    match c with
    | .s _ => .ok col
    | .f _ => .ok (col.map fun k => .s (pyStr k))

/-- `keyword.lower()` on a cell: a non-string cell has no `lower` method
(`AttributeError`), reached at jaccard-score-cli.py line 141 or 175. -/
def pyLowerCell : PCell → Except PyErr Kw
  | .s v => .ok (pyLower v)
  | .f _ => .error .attributeError

end Cli

namespace App

theorem scanRules_fst (n : Name) (k : Kw) (ps : List Pat) :
    (scanRules n k ps).1 = matchesCat ps k := by
  induction ps with
  | nil => rfl
  | cons p ps ih =>
    cases p with
    | re r =>
      cases h : reSearch r k with
      | true => simp [scanRules, tryPat, matchesCat, h]
      | false => simp [scanRules, tryPat, matchesCat, h, ih]
    | bad s => simp [scanRules, tryPat, matchesCat, ih]

theorem scanCategories_fst_none (k : Kw) (cats : Categories) :
    (scanCategories k cats).1 = none ↔ ∀ c ∈ cats, matchesCat c.2 k = false := by
  induction cats with
  | nil => simp [scanCategories]
  | cons c rest ih =>
    obtain ⟨n, ps⟩ := c
    cases h : matchesCat ps k with
    | true => simp [scanCategories, scanRules_fst, h]
    | false => simp [scanCategories, scanRules_fst, h, ih]

theorem scanCategories_fst_cons_match (k : Kw) (n : Name) (ps : List Pat)
    (rest : Categories) (h : matchesCat ps k = true) :
    (scanCategories k ((n, ps) :: rest)).1 = some n := by
  simp [scanCategories, scanRules_fst, h]

theorem scanCategories_fst_cons_nomatch (k : Kw) (n : Name) (ps : List Pat)
    (rest : Categories) (h : matchesCat ps k = false) :
    (scanCategories k ((n, ps) :: rest)).1 = (scanCategories k rest).1 := by
  simp [scanCategories, scanRules_fst, h]

theorem scanCategories_fst_append_nomatch (k : Kw) (pre cats : Categories)
    (h : ∀ c ∈ pre, matchesCat c.2 k = false) :
    (scanCategories k (pre ++ cats)).1 = (scanCategories k cats).1 := by
  induction pre with
  | nil => rfl
  | cons c pre ih =>
    obtain ⟨n, ps⟩ := c
    have hn : matchesCat ps k = false := h (n, ps) (by simp)
    rw [List.cons_append, scanCategories_fst_cons_nomatch _ _ _ _ hn]
    exact ih fun c hc => h c (by simp [hc])

theorem scanCategories_fst_mem (k : Kw) (pre : Categories) (n : Name)
    (ps : List Pat) (rest : Categories) (h : matchesCat ps k = true) (m : Name)
    (hm : (scanCategories k (pre ++ (n, ps) :: rest)).1 = some m) :
    m ∈ pre.map Prod.fst ++ [n] := by
  induction pre with
  | nil =>
    rw [List.nil_append, scanCategories_fst_cons_match _ _ _ _ h] at hm
    simp at hm ⊢
    exact hm.symm
  | cons c pre ih =>
    obtain ⟨n0, ps0⟩ := c
    cases h0 : matchesCat ps0 k with
    | true =>
      rw [List.cons_append, scanCategories_fst_cons_match _ _ _ _ h0] at hm
      simp at hm ⊢
      exact Or.inl hm.symm
    | false =>
      rw [List.cons_append, scanCategories_fst_cons_nomatch _ _ _ _ h0] at hm
      have := ih hm
      simp at this ⊢
      tauto

theorem getBucket_updateBucket (cs : Clusters) (m : Name) (kw : Kw) (n : Name) :
    getBucket (updateBucket cs m kw) n =
      getBucket cs n ++ (if m = n then [kw] else []) := by
  induction cs with
  | nil =>
    by_cases h : m = n <;> simp [updateBucket, getBucket, h]
  | cons c rest ih =>
    obtain ⟨cn, b⟩ := c
    by_cases h1 : cn = m
    · subst h1
      by_cases h2 : cn = n <;> simp [updateBucket, getBucket, h2]
    · by_cases h2 : cn = n
      · have hmn : ¬ m = n := fun e => h1 (h2.trans e.symm)
        have hnm : ¬ n = m := fun e => h1 (h2.trans e)
        simp [updateBucket, getBucket, h1, h2, hmn, hnm]
      · simp [updateBucket, getBucket, h1, h2, ih]

theorem flattenClusters_updateBucket (cs : Clusters) (m : Name) (kw : Kw) :
    flattenClusters (updateBucket cs m kw) ~ kw :: flattenClusters cs := by
  induction cs with
  | nil => simp [updateBucket, flattenClusters]
  | cons c rest ih =>
    obtain ⟨cn, b⟩ := c
    by_cases h1 : cn = m
    · subst h1
      simp only [updateBucket, if_pos rfl, flattenClusters, List.flatMap_cons]
      calc (b ++ [kw]) ++ rest.flatMap Prod.snd
          ~ (kw :: b) ++ rest.flatMap Prod.snd :=
            (List.perm_append_singleton kw b).append_right _
        _ = kw :: (b ++ rest.flatMap Prod.snd) := rfl
    · simp only [updateBucket, if_neg h1, flattenClusters, List.flatMap_cons]
      calc b ++ flattenClusters (updateBucket rest m kw)
          ~ b ++ (kw :: flattenClusters rest) := (ih).append_left b
        _ ~ kw :: (b ++ flattenClusters rest) := List.perm_middle

theorem assignStep_clusters (cats : Categories) (st : ClusterState) (kw : Kw)
    (h : Inv cats st) :
    (assignStep cats st kw).clusters = updateBucket st.clusters (assignName cats kw) kw := by
  cases hs : (scanCategories (pyLower kw) cats).1 with
  | some n => simp [assignStep, assignName, hs]
  | none =>
    have hk : kw ∉ st.assigned := fun hmem => by simpa [hs] using h kw hmem
    simp [assignStep, assignName, hs, hk]

theorem assignStep_assigned (cats : Categories) (st : ClusterState) (kw : Kw) :
    (assignStep cats st kw).assigned = st.assigned ∨
      ((assignStep cats st kw).assigned = st.assigned ++ [kw] ∧
        ((scanCategories (pyLower kw) cats).1).isSome) := by
  cases hs : (scanCategories (pyLower kw) cats).1 with
  | some n => right; simp [assignStep, hs]
  | none => left; simp [assignStep, hs]

theorem assignStep_inv (cats : Categories) (st : ClusterState) (kw : Kw)
    (h : Inv cats st) : Inv cats (assignStep cats st kw) := by
  rcases assignStep_assigned cats st kw with he | ⟨he, hsome⟩ <;>
    intro x hx <;> rw [he] at hx
  · exact h x hx
  · rcases List.mem_append.1 hx with hx | hx
    · exact h x hx
    · simp at hx
      subst hx
      exact hsome

theorem foldl_getBucket (cats : Categories) (kws : List Kw) :
    ∀ st, Inv cats st → ∀ n,
      getBucket ((kws.foldl (assignStep cats) st).clusters) n =
        getBucket st.clusters n ++
          kws.filter (fun kw => decide (assignName cats kw = n)) := by
  induction kws with
  | nil => intro st _ n; simp
  | cons kw rest ih =>
    intro st h n
    rw [List.foldl_cons, ih _ (assignStep_inv _ _ _ h) n,
      assignStep_clusters _ _ _ h, getBucket_updateBucket, List.filter_cons]
    by_cases hn : assignName cats kw = n
    · simp [hn, List.append_assoc]
    · simp [hn]

theorem foldl_flatten (cats : Categories) (kws : List Kw) :
    ∀ st, Inv cats st →
      flattenClusters ((kws.foldl (assignStep cats) st).clusters) ~
        flattenClusters st.clusters ++ kws := by
  induction kws with
  | nil => intro st _; simp
  | cons kw rest ih =>
    intro st h
    rw [List.foldl_cons]
    calc flattenClusters ((rest.foldl (assignStep cats) (assignStep cats st kw)).clusters)
        ~ flattenClusters (assignStep cats st kw).clusters ++ rest :=
          ih _ (assignStep_inv _ _ _ h)
      _ ~ (kw :: flattenClusters st.clusters) ++ rest := by
          rw [assignStep_clusters _ _ _ h]
          exact (flattenClusters_updateBucket _ _ _).append_right rest
      _ ~ flattenClusters st.clusters ++ (kw :: rest) := List.perm_middle.symm

theorem cluster_keywords_getBucket (kws : List Kw) (cats : Categories) (n : Name) :
    getBucket (cluster_keywords kws cats).1 n =
      kws.filter (fun kw => decide (assignName cats kw = n)) := by
  have h := foldl_getBucket cats kws ⟨[], [], []⟩ (fun x hx => by simp at hx) n
  simpa [cluster_keywords, getBucket] using h

theorem cluster_keywords_flatten (kws : List Kw) (cats : Categories) :
    flattenClusters (cluster_keywords kws cats).1 ~ kws := by
  have h := foldl_flatten cats kws ⟨[], [], []⟩ (fun x hx => by simp at hx)
  simpa [cluster_keywords, flattenClusters] using h

end App

theorem mtch_lit (f : Nat) (s : List Char) :
    ∀ t : List Char, mtch (f + 1) (lit s) t ≠ [] ↔ ∃ u, pyLower t = pyLower s ++ u := by
  induction s with
  | nil =>
    intro t
    simp [mtch, mtchL, lit, pyLower]
  | cons c s ih =>
    intro t
    cases t with
    | nil => simp [mtch, mtchL, lit, pyLower]
    | cons a t =>
      by_cases h : c.toLower = a.toLower
      · simpa [mtch, mtchL, lit, pyLower, h] using ih t
      · simp only [mtch, mtchL, lit, if_neg h, pyLower, List.map_cons, List.cons_append,
          List.flatMap_nil, ne_eq, not_true_eq_false, false_iff, not_exists]
        intro u hu
        exact h (List.cons.injEq .. ▸ hu).1.symm

theorem reSearch_lit (s k : Kw) :
    reSearch (lit s) k = true ↔ ∃ pre post, pyLower k = pre ++ pyLower s ++ post := by
  unfold reSearch
  rw [List.any_eq_true]
  constructor
  · rintro ⟨i, _, hne⟩
    have hne' : mtch (k.length + 1) (lit s) (k.drop i) ≠ [] := by
      simpa [List.isEmpty_iff] using hne
    obtain ⟨u, hu⟩ := (mtch_lit _ _ _).1 hne'
    refine ⟨(pyLower k).take i, u, ?_⟩
    rw [show pyLower (k.drop i) = (pyLower k).drop i from List.map_drop _ _ _] at hu
    conv_lhs => rw [← List.take_append_drop i (pyLower k)]
    rw [hu, ← List.append_assoc]
  · rintro ⟨pre, post, h⟩
    rw [List.append_assoc] at h
    have hlen : pre.length ≤ k.length := by
      have := congrArg List.length h
      simp [pyLower] at this
      omega
    refine ⟨pre.length, by simp [List.mem_range]; omega, ?_⟩
    have hd : pyLower (k.drop pre.length) = pyLower s ++ post := by
      rw [show pyLower (k.drop pre.length) = (pyLower k).drop pre.length from
        List.map_drop _ _ _, h, List.drop_left]
    have := (mtch_lit k.length s (k.drop pre.length)).2 ⟨post, hd⟩
    simpa [List.isEmpty_iff] using this

namespace Cli

theorem stepSim_flatten (t : ℚ) (k : Kw) (cs : List (List Kw)) :
    (stepSim t k cs).flatten ~ k :: cs.flatten := by
  induction cs with
  | nil => simp [stepSim]
  | cons c rest ih =>
    by_cases h : qualifies t k c
    · simp only [stepSim, if_pos h, List.flatten_cons]
      exact (List.perm_append_singleton _ _).append_right _
    · simp only [stepSim, if_neg h, List.flatten_cons]
      calc c ++ (stepSim t k rest).flatten
          ~ c ++ (k :: rest.flatten) := ih.append_left c
        _ ~ k :: (c ++ rest.flatten) := List.perm_middle

theorem stepSim_length (t : ℚ) (k : Kw) (cs : List (List Kw)) :
    (stepSim t k cs).length =
      if cs.any (qualifies t k) then cs.length else cs.length + 1 := by
  induction cs with
  | nil => simp [stepSim]
  | cons c rest ih =>
    by_cases h : qualifies t k c
    · simp [stepSim, h]
    · have hf : qualifies t k c = false := by simpa using h
      rw [show stepSim t k (c :: rest) = c :: stepSim t k rest by simp [stepSim, h]]
      simp only [List.length_cons, List.any_cons, hf, Bool.false_or, ih]
      by_cases h2 : rest.any (qualifies t k) = true <;> simp [h2]

theorem foldlSim_flatten (t : ℚ) (l : List Kw) :
    ∀ cs, ((l.foldl (fun cs k => stepSim t k cs) cs).flatten) ~ cs.flatten ++ l := by
  induction l with
  | nil => intro cs; simp
  | cons k rest ih =>
    intro cs
    rw [List.foldl_cons]
    calc (rest.foldl (fun cs k => stepSim t k cs) (stepSim t k cs)).flatten
        ~ (stepSim t k cs).flatten ++ rest := ih _
      _ ~ (k :: cs.flatten) ++ rest := (stepSim_flatten t k cs).append_right _
      _ ~ cs.flatten ++ (k :: rest) := List.perm_middle.symm

theorem foldlSim_length_mono (t t' : ℚ) (h : t ≤ t') (l : List Kw) :
    (l.foldl (fun cs k => stepSim t k cs) []).length ≤
      (l.foldl (fun cs k => stepSim t' k cs) []).length := by
  induction l using List.reverseRecOn with
  | nil => simp
  | append_singleton l k ih =>
    rw [List.foldl_append, List.foldl_append, List.foldl_cons, List.foldl_cons,
      List.foldl_nil, List.foldl_nil, stepSim_length, stepSim_length]
    have hmemA : ∀ m, m ∈ (l.foldl (fun cs k => stepSim t k cs) []).flatten ↔ m ∈ l :=
      fun m => by simpa using (foldlSim_flatten t l []).mem_iff
    have hmemB : ∀ m, m ∈ (l.foldl (fun cs k => stepSim t' k cs) []).flatten ↔ m ∈ l :=
      fun m => by simpa using (foldlSim_flatten t' l []).mem_iff
    by_cases hq : (l.foldl (fun cs k => stepSim t' k cs) []).any (qualifies t' k) = true
    · have hqA : (l.foldl (fun cs k => stepSim t k cs) []).any (qualifies t k) = true := by
        rw [List.any_eq_true] at hq ⊢
        obtain ⟨c, hc, hqual⟩ := hq
        rw [qualifies, List.any_eq_true] at hqual
        obtain ⟨m, hm, hsim⟩ := hqual
        have hml : m ∈ l := (hmemB m).1 (List.mem_flatten.2 ⟨c, hc, hm⟩)
        obtain ⟨c', hc', hm'⟩ := List.mem_flatten.1 ((hmemA m).2 hml)
        refine ⟨c', hc', ?_⟩
        rw [qualifies, List.any_eq_true]
        exact ⟨m, hm', by simp at hsim ⊢; exact le_trans h hsim⟩
      rw [if_pos hq, if_pos hqA]
      exact ih
    · rw [if_neg hq]
      by_cases hqA : (l.foldl (fun cs k => stepSim t k cs) []).any (qualifies t k) = true
      · rw [if_pos hqA]; omega
      · rw [if_neg hqA]; omega

end Cli

namespace Cli

theorem catPass_assigned (ps : List Regex) (kws : List Kw) :
    ∀ a, (catPass ps kws a).2 = a ++ (catPass ps kws a).1 := by
  induction kws with
  | nil => intro a; simp [catPass]
  | cons kw rest ih =>
    intro a
    by_cases h1 : kw ∈ a
    · simp only [catPass, if_pos h1]
      exact ih a
    · by_cases h2 : matchesCatR ps kw = true
      · simp only [catPass, if_neg h1, if_pos h2]
        rw [ih (a ++ [kw])]
        simp
      · simp only [catPass, if_neg h1, if_neg h2]
        exact ih a

theorem catPass_members_sub (ps : List Regex) (kws : List Kw) :
    ∀ a x, x ∈ (catPass ps kws a).1 → x ∈ kws ∧ matchesCatR ps x = true := by
  induction kws with
  | nil => intro a x hx; simp [catPass] at hx
  | cons kw rest ih =>
    intro a x hx
    by_cases h1 : kw ∈ a
    · rw [catPass, if_pos h1] at hx
      have := ih a x hx
      exact ⟨by simp [this.1], this.2⟩
    · by_cases h2 : matchesCatR ps kw = true
      · rw [catPass, if_neg h1, if_pos h2] at hx
        simp only [List.mem_cons] at hx
        rcases hx with rfl | hx
        · exact ⟨by simp, h2⟩
        · have := ih _ x hx
          exact ⟨by simp [this.1], this.2⟩
      · rw [catPass, if_neg h1, if_neg h2] at hx
        have := ih a x hx
        exact ⟨by simp [this.1], this.2⟩

theorem catPass_nodup (ps : List Regex) (kws : List Kw) :
    ∀ a, a.Nodup → ((catPass ps kws a).2).Nodup := by
  induction kws with
  | nil => intro a ha; simpa [catPass] using ha
  | cons kw rest ih =>
    intro a ha
    by_cases h1 : kw ∈ a
    · rw [catPass, if_pos h1]; exact ih a ha
    · by_cases h2 : matchesCatR ps kw = true
      · rw [catPass, if_neg h1, if_pos h2]
        exact ih _ (((List.perm_append_singleton kw a).nodup_iff).2 (by simp [h1, ha]))
      · rw [catPass, if_neg h1, if_neg h2]; exact ih a ha

theorem catPass_skip (ps : List Regex) (kws : List Kw) :
    ∀ a x, x ∈ a → x ∉ (catPass ps kws a).1 := by
  induction kws with
  | nil => intro a x _ hx; simp [catPass] at hx
  | cons kw rest ih =>
    intro a x hxa
    by_cases h1 : kw ∈ a
    · rw [catPass, if_pos h1]; exact ih a x hxa
    · by_cases h2 : matchesCatR ps kw = true
      · rw [catPass, if_neg h1, if_pos h2]
        simp only [List.mem_cons, not_or]
        exact ⟨fun e => h1 (e ▸ hxa), ih _ x (by simp [hxa])⟩
      · rw [catPass, if_neg h1, if_neg h2]; exact ih a x hxa

theorem catPass_mem (ps : List Regex) (kws : List Kw) :
    ∀ a x, x ∈ kws → x ∉ a → matchesCatR ps x = true → x ∈ (catPass ps kws a).1 := by
  induction kws with
  | nil => intro a x hx; simp at hx
  | cons kw rest ih =>
    intro a x hx hxa hm
    by_cases h1 : kw ∈ a
    · rw [catPass, if_pos h1]
      rcases List.mem_cons.1 hx with rfl | hx
      · exact absurd h1 hxa
      · exact ih a x hx hxa hm
    · by_cases h2 : matchesCatR ps kw = true
      · rw [catPass, if_neg h1, if_pos h2]
        by_cases he : x = kw
        · simp [he]
        · rcases List.mem_cons.1 hx with rfl | hx
          · simp
          · exact List.mem_cons_of_mem _ (ih _ x hx (by simp [hxa, he]) hm)
      · rw [catPass, if_neg h1, if_neg h2]
        rcases List.mem_cons.1 hx with rfl | hx
        · exact absurd hm h2
        · exact ih a x hx hxa hm

theorem catPass_assigned_mono (ps : List Regex) (kws : List Kw) (a : List Kw) (x : Kw)
    (hx : x ∈ a) : x ∈ (catPass ps kws a).2 := by
  rw [catPass_assigned]
  exact List.mem_append_left _ hx

theorem semLoop_assigned (cats : List (Name × List Regex)) (kws : List Kw) :
    ∀ a, (semLoop cats kws a).2.2 = a ++ (((semLoop cats kws a).1.map Prod.snd).flatten) := by
  induction cats with
  | nil => intro a; simp [semLoop]
  | cons c rest ih =>
    obtain ⟨n, ps⟩ := c
    intro a
    by_cases hm : (catPass ps kws a).1.isEmpty = true
    · have hm' : (catPass ps kws a).1 = [] := by simpa [List.isEmpty_iff] using hm
      have ha : (catPass ps kws a).2 = a := by rw [catPass_assigned, hm', List.append_nil]
      simp only [semLoop, if_pos hm, ha]
      exact ih a
    · have h2 := ih (catPass ps kws a).2
      rw [catPass_assigned] at h2
      simp only [semLoop, if_neg hm, List.map_cons, List.flatten_cons,
        catPass_assigned, h2, List.append_assoc]

theorem semLoop_names_sublist (cats : List (Name × List Regex)) (kws : List Kw) :
    ∀ a, ((semLoop cats kws a).1.map Prod.fst) <+ cats.map Prod.fst := by
  induction cats with
  | nil => intro a; simp [semLoop]
  | cons c rest ih =>
    obtain ⟨n, ps⟩ := c
    intro a
    by_cases hm : (catPass ps kws a).1.isEmpty = true
    · simp only [semLoop, if_pos hm, List.map_cons]
      exact (ih _).cons _
    · simp only [semLoop, if_neg hm, List.map_cons]
      exact (ih _).cons₂ _

theorem semLoop_skip (cats : List (Name × List Regex)) (kws : List Kw) :
    ∀ a x, x ∈ a → ∀ n ms, (n, ms) ∈ (semLoop cats kws a).1 → x ∉ ms := by
  induction cats with
  | nil => intro a x _ n ms hmem; simp [semLoop] at hmem
  | cons c rest ih =>
    obtain ⟨n0, ps⟩ := c
    intro a x hxa n ms hmem
    by_cases hm : (catPass ps kws a).1.isEmpty = true
    · rw [semLoop, if_pos hm] at hmem
      exact ih _ x (catPass_assigned_mono _ _ _ _ hxa) n ms hmem
    · rw [semLoop, if_neg hm] at hmem
      rcases List.mem_cons.1 hmem with he | hmem
      · have : ms = (catPass ps kws a).1 := congrArg Prod.snd he
        rw [this]
        exact catPass_skip _ _ _ x hxa
      · exact ih _ x (catPass_assigned_mono _ _ _ _ hxa) n ms hmem

theorem semLoop_named_from (cats : List (Name × List Regex)) (kws : List Kw) :
    ∀ a n ms, (n, ms) ∈ (semLoop cats kws a).1 →
      ∃ ps, (n, ps) ∈ cats ∧ ∀ x ∈ ms, x ∈ kws ∧ matchesCatR ps x = true := by
  induction cats with
  | nil => intro a n ms hmem; simp [semLoop] at hmem
  | cons c rest ih =>
    obtain ⟨n0, ps0⟩ := c
    intro a n ms hmem
    by_cases hm : (catPass ps0 kws a).1.isEmpty = true
    · rw [semLoop, if_pos hm] at hmem
      obtain ⟨ps, hin, hall⟩ := ih _ n ms hmem
      exact ⟨ps, by simp [hin], hall⟩
    · rw [semLoop, if_neg hm] at hmem
      rcases List.mem_cons.1 hmem with he | hmem
      · have hn : n = n0 := congrArg Prod.fst he
        have hms : ms = (catPass ps0 kws a).1 := congrArg Prod.snd he
        refine ⟨ps0, by simp [hn], fun x hx => ?_⟩
        exact catPass_members_sub _ _ _ x (hms ▸ hx)
      · obtain ⟨ps, hin, hall⟩ := ih _ n ms hmem
        exact ⟨ps, by simp [hin], hall⟩

end Cli

namespace Cli

theorem semLoop_nodup (cats : List (Name × List Regex)) (kws : List Kw) :
    ∀ a, a.Nodup → ((semLoop cats kws a).2.2).Nodup := by
  induction cats with
  | nil => intro a ha; simpa [semLoop] using ha
  | cons c rest ih =>
    obtain ⟨n, ps⟩ := c
    intro a ha
    by_cases hm : (catPass ps kws a).1.isEmpty = true
    · simp only [semLoop, if_pos hm]
      exact ih _ (catPass_nodup _ _ _ ha)
    · simp only [semLoop, if_neg hm]
      exact ih _ (catPass_nodup _ _ _ ha)

theorem semLoop_assigned_sub (cats : List (Name × List Regex)) (kws : List Kw)
    (x : Kw) (hx : x ∈ (semLoop cats kws []).2.2) :
    x ∈ kws ∧ ∃ c ∈ cats, matchesCatR c.2 x = true := by
  rw [semLoop_assigned, List.nil_append] at hx
  obtain ⟨ms', hms', hxms⟩ := List.mem_flatten.1 hx
  obtain ⟨⟨n, ms⟩, hmem, hsnd⟩ := List.mem_map.1 hms'
  obtain ⟨ps, hin, hall⟩ := semLoop_named_from cats kws [] n ms hmem
  have hx2 := hall x (by rw [show ms = ms' from hsnd]; exact hxms)
  exact ⟨hx2.1, ⟨(n, ps), hin, hx2.2⟩⟩

theorem semLoop_append (l1 l2 : List (Name × List Regex)) (kws : List Kw) :
    ∀ a, (semLoop (l1 ++ l2) kws a).1 =
        (semLoop l1 kws a).1 ++ (semLoop l2 kws ((semLoop l1 kws a).2.2)).1 ∧
      (semLoop (l1 ++ l2) kws a).2.2 = (semLoop l2 kws ((semLoop l1 kws a).2.2)).2.2 := by
  induction l1 with
  | nil => intro a; simp [semLoop]
  | cons c l1 ih =>
    obtain ⟨n, ps⟩ := c
    intro a
    by_cases hm : (catPass ps kws a).1.isEmpty = true
    · simp only [List.cons_append, semLoop, if_pos hm]
      exact ih _
    · simp only [List.cons_append, semLoop, if_neg hm]
      exact ⟨congrArg (List.cons (n, (catPass ps kws a).1)) ((ih _).1), (ih _).2⟩

theorem semantic_flatten (cats : List (Name × List Regex)) (kws : List Kw)
    (h : kws.Nodup) :
    ((semantic_cluster_keywords cats kws).1).flatten ~ kws := by
  simp only [semantic_cluster_keywords]
  have hAflat : ((semLoop cats kws []).1.map Prod.snd).flatten = (semLoop cats kws []).2.2 := by
    conv_rhs => rw [semLoop_assigned]
    simp
  have hsub : ∀ x ∈ (semLoop cats kws []).2.2, x ∈ kws :=
    fun x hx => (semLoop_assigned_sub cats kws x hx).1
  have hnA : ((semLoop cats kws []).2.2).Nodup := semLoop_nodup cats kws [] (by simp)
  have hflat :
      (((semLoop cats kws []).1.map Prod.snd) ++
        (if (kws.filter fun kw => decide (kw ∉ (semLoop cats kws []).2.2)).isEmpty
          then (if (semLoop cats kws []).2.1 then [[]] else []) else
          [kws.filter fun kw => decide (kw ∉ (semLoop cats kws []).2.2)])).flatten
      = (semLoop cats kws []).2.2 ++
          (kws.filter fun kw => decide (kw ∉ (semLoop cats kws []).2.2)) := by
    rw [List.flatten_append, hAflat]
    by_cases ho : (kws.filter fun kw => decide (kw ∉ (semLoop cats kws []).2.2)).isEmpty = true
    · have he : (kws.filter fun kw => decide (kw ∉ (semLoop cats kws []).2.2)) = [] := by
        simpa [List.isEmpty_iff] using ho
      rw [he]
      by_cases hf : (semLoop cats kws []).2.1 = true <;> simp [hf]
    · rw [if_neg ho]
      simp
  rw [hflat]
  have hperm2 : (semLoop cats kws []).2.2 ~
      kws.filter fun x => decide (x ∈ (semLoop cats kws []).2.2) := by
    rw [List.perm_ext_iff_of_nodup hnA (h.filter _)]
    intro x
    simp only [List.mem_filter, decide_eq_true_eq]
    exact ⟨fun hx => ⟨hsub x hx, hx⟩, fun hx => hx.2⟩
  calc (semLoop cats kws []).2.2 ++
        (kws.filter fun kw => decide (kw ∉ (semLoop cats kws []).2.2))
      ~ (kws.filter fun x => decide (x ∈ (semLoop cats kws []).2.2)) ++
        (kws.filter fun kw => decide (kw ∉ (semLoop cats kws []).2.2)) :=
        hperm2.append_right _
    _ ~ kws := by
        have := List.filter_append_perm (fun x => decide (x ∈ (semLoop cats kws []).2.2)) kws
        simpa [decide_not] using this

theorem dictKeys_aux (kws : List Kw) :
    ∀ acc, kws.Nodup → (∀ k ∈ kws, k ∉ acc) →
      kws.foldl (fun acc k => if k ∈ acc then acc else acc ++ [k]) acc = acc ++ kws := by
  induction kws with
  | nil => intro acc _ _; simp
  | cons kw rest ih =>
    intro acc hnd hdisj
    rw [List.foldl_cons, if_neg (hdisj kw (by simp))]
    have hknotin : kw ∉ rest := (List.nodup_cons.1 hnd).1
    rw [ih (acc ++ [kw]) (List.nodup_cons.1 hnd).2 ?_]
    · simp
    · intro k hk
      simp only [List.mem_append, List.mem_singleton, not_or]
      exact ⟨hdisj k (by simp [hk]), fun e => hknotin (e ▸ hk)⟩

theorem dictKeys_of_nodup (kws : List Kw) (h : kws.Nodup) : dictKeys kws = kws := by
  have := dictKeys_aux kws [] h (by simp)
  simpa [dictKeys] using this

theorem similarity_flatten (kws : List Kw) (t : ℚ) (h : kws.Nodup) :
    ((similarity_cluster_keywords kws t).1).flatten ~ kws := by
  simp only [similarity_cluster_keywords]
  rw [dictKeys_of_nodup kws h]
  simpa using foldlSim_flatten t kws []

theorem nameTable_map_getD (named : List (Name × List Kw)) :
    ∀ (front t2 : List (List Kw)),
      (nameTable named front.length).map
        (fun p => (p.2, (front ++ (named.map Prod.snd ++ t2)).getD p.1 [])) = named := by
  induction named with
  | nil => intro front t2; simp [nameTable]
  | cons c rest ih =>
    obtain ⟨n, ms⟩ := c
    intro front t2
    simp only [nameTable, List.map_cons]
    have hhead : (front ++ ((ms :: rest.map Prod.snd) ++ t2)).getD front.length [] = ms := by
      rw [List.getD_append_right _ _ _ _ (le_refl _)]
      simp
    have htail := ih (front ++ [ms]) t2
    simp only [List.length_append, List.length_cons, List.length_nil,
      List.append_assoc, List.singleton_append] at htail
    exact congrArg₂ List.cons (by rw [hhead]) htail

end Cli

namespace Cli

theorem baskets_semantic (cats : List (Name × List Regex)) (kws : List Kw) :
    baskets (semantic_cluster_keywords cats kws) =
      (semLoop cats kws []).1 ++
        (if (kws.filter fun kw => decide (kw ∉ (semLoop cats kws []).2.2)).isEmpty
          then []
          else [(otherName, kws.filter fun kw => decide (kw ∉ (semLoop cats kws []).2.2))]) := by
  simp only [baskets, semantic_cluster_keywords]
  rw [List.map_append]
  have h1 := nameTable_map_getD (semLoop cats kws []).1 [] (
    if (kws.filter fun kw => decide (kw ∉ (semLoop cats kws []).2.2)).isEmpty
      then (if (semLoop cats kws []).2.1 then [[]] else [])
      else [kws.filter fun kw => decide (kw ∉ (semLoop cats kws []).2.2)])
  simp only [List.length_nil, List.nil_append] at h1
  rw [h1]
  by_cases ho : (kws.filter fun kw => decide (kw ∉ (semLoop cats kws []).2.2)).isEmpty = true
  · simp only [ho]
    simp
  · have ho' : (kws.filter fun kw => decide (kw ∉ (semLoop cats kws []).2.2)).isEmpty = false := by
      simpa using ho
    simp only [ho', Bool.false_eq_true, if_false, List.map_cons, List.map_nil]
    have hg : (((semLoop cats kws []).1.map Prod.snd) ++
        [kws.filter fun kw => decide (kw ∉ (semLoop cats kws []).2.2)]).getD
          (semLoop cats kws []).1.length [] =
        kws.filter fun kw => decide (kw ∉ (semLoop cats kws []).2.2) := by
      rw [List.getD_append_right _ _ _ _ (by simp)]
      simp
    rw [hg]

end Cli

namespace App

theorem summary_data_sorted (cs : Clusters) :
    List.Sorted (· ≤ ·) ((summary_data cs).map Prod.fst) := by
  haveI : IsTotal (Name × List Kw) (fun a b => a.1 ≤ b.1) := ⟨fun a b => le_total a.1 b.1⟩
  haveI : IsTrans (Name × List Kw) (fun a b => a.1 ≤ b.1) :=
    ⟨fun a b c hab hbc => le_trans hab hbc⟩
  have h := List.sorted_insertionSort (fun a b => a.1 ≤ b.1) cs
  have hmap : (summary_data cs).map Prod.fst = (sortedClusters cs).map Prod.fst := by
    simp [summary_data, List.map_map, Function.comp]
  rw [hmap]
  exact List.Pairwise.map Prod.fst (fun a b hab => hab) h

end App

namespace App

theorem foldl_other (kws : List Kw) :
    ∀ (b : List Kw) (w : List (Name × List Char)),
      ((kws.foldl (assignStep []) ⟨[(otherName, b)], [], w⟩).clusters) =
        [(otherName, b ++ kws)] := by
  induction kws with
  | nil => intro b w; simp
  | cons kw rest ih =>
    intro b w
    rw [List.foldl_cons,
      show assignStep [] ⟨[(otherName, b)], [], w⟩ kw =
        ⟨[(otherName, b ++ [kw])], [], w⟩ by simp [assignStep, scanCategories, updateBucket],
      ih]
    simp

end App

/-- Claim C3: a substring rule — a pattern that is a literal string — matches
exactly when the rule text, lowercased, occurs as a contiguous substring of
the lowercased keyword; and every rule is evaluated by the matcher as an
unanchored case-insensitive `re.search` of its compiled pattern. -/
theorem claim_c3_substring_rule (s k : Kw) :
    (reSearch (lit s) k = true ↔ ∃ pre post, pyLower k = pre ++ pyLower s ++ post) ∧
      ∀ r : Regex, App.tryPat (App.Pat.re r) k = Except.ok (reSearch r k) :=
  ⟨reSearch_lit s k, fun _ => rfl⟩

/-- Claim C4: for every keyword list (in its given order), similarity
clustering at threshold 1.0 produces at least as many clusters as at
threshold 0.6. -/
theorem claim_c4_threshold_mono (keywords : List Kw) :
    ((Cli.similarity_cluster_keywords keywords (6/10)).1).length ≤
      ((Cli.similarity_cluster_keywords keywords 1).1).length := by
  have h := Cli.foldlSim_length_mono (6/10) 1 (by norm_num) (Cli.dictKeys keywords)
  simpa [Cli.similarity_cluster_keywords] using h

/-- Claim C9: the app takes the keyword list from the first column of the
uploaded file whatever that column's header is — no check for a column
named `Keyword` — so a file whose keywords sit in a later column silently
yields the first column's values instead. -/
theorem claim_c9_first_column :
    (∀ (n : App.Name) (vals : List PCell) (rest : List (App.Name × List PCell)),
        App.load_keywords ((n, vals) :: rest) = some vals) ∧
      (App.load_keywords
          [("Name".data, [PCell.s "x".data]), ("Keyword".data, [PCell.s "kw".data])]
          = some [PCell.s "x".data] ∧
        [PCell.s "x".data] ≠ [PCell.s "kw".data]) :=
  ⟨fun _ _ _ => rfl, rfl, by decide⟩

/-- Claim C10: in the CLI, whether column values are converted through `str`
is decided solely by the type of the first value; with a string first value
the rest are used unconverted, so a later non-string value reaches
`keyword.lower()`, where the `AttributeError` branch is reachable. -/
theorem claim_c10_first_value_conversion :
    (∀ (v : List Char) (rest : List PCell),
        Cli.extract_keywords (PCell.s v :: rest) = Except.ok (PCell.s v :: rest)) ∧
      (∀ (n : Int) (rest : List PCell),
        Cli.extract_keywords (PCell.f n :: rest) =
          Except.ok ((PCell.f n :: rest).map fun c => PCell.s (pyStr c))) ∧
      ∃ col : List PCell, ∃ c ∈ col,
        Cli.extract_keywords col = Except.ok col ∧
          Cli.pyLowerCell c = Except.error Cli.PyErr.attributeError :=
  ⟨fun _ _ => rfl, fun _ _ => rfl,
    ⟨[PCell.s "a".data, PCell.f 3], PCell.f 3, by decide, rfl, rfl⟩⟩

/-- Claim C5: a malformed regular-expression rule does not abort the run —
it yields a warning attached to its category and is treated as
never-matching, so a category whose rule list is a malformed pattern
followed by a valid matching pattern still receives the keyword. -/
theorem claim_c5_malformed_isolation (name : App.Name) (p : List Char) (r : Regex)
    (kw : Kw) (post : App.Categories) (h : reSearch r (pyLower kw) = true) :
    kw ∈ App.getBucket (App.cluster_keywords [kw]
        ((name, [App.Pat.bad p, App.Pat.re r]) :: post)).1 name ∧
      (name, p) ∈ (App.cluster_keywords [kw]
        ((name, [App.Pat.bad p, App.Pat.re r]) :: post)).2 := by
  constructor
  · simp [App.cluster_keywords, App.assignStep, App.scanCategories, App.scanRules,
      App.tryPat, h, App.updateBucket, App.getBucket]
  · simp [App.cluster_keywords, App.assignStep, App.scanCategories, App.scanRules,
      App.tryPat, h]

/-- Witness for C5: a malformed pattern `(` next to the valid pattern `a`
on the keyword `a`. -/
theorem claim_c5_malformed_isolation_witness :
    "a".data ∈ App.getBucket (App.cluster_keywords ["a".data]
        [("C".data, [App.Pat.bad "(".data, App.Pat.re (Regex.char 'a')])]).1 "C".data ∧
      ("C".data, "(".data) ∈ (App.cluster_keywords ["a".data]
        [("C".data, [App.Pat.bad "(".data, App.Pat.re (Regex.char 'a')])]).2 :=
  claim_c5_malformed_isolation "C".data "(".data (Regex.char 'a') "a".data [] (by decide)

/-- Counterexample to C7 as stated: neither an empty category set nor an
empty keyword list makes the run fail — matching proceeds and returns a
normal result (all keywords in `Other`, resp. no baskets at all). -/
theorem claim_c7_counterexample :
    App.cluster_keywords ["a".data] [] = ([(otherName, ["a".data])], []) ∧
      App.cluster_keywords [] [("A".data, [App.Pat.re (Regex.char 'a')])] = ([], []) :=
  ⟨rfl, rfl⟩

/-- Claim C7 (amended): there is no eager empty-input validation.  The
app's matcher maps an empty keyword list to an empty result and an empty
category set to an all-`Other` result, erroring in neither case; the CLI
aborts on an empty keyword column only through the unhandled `IndexError`
raised when reading the column's first value. -/
theorem claim_c7_no_empty_validation :
    (∀ cats : App.Categories, App.cluster_keywords [] cats = ([], [])) ∧
      (∀ kws : List Kw, kws ≠ [] →
        (App.cluster_keywords kws []).1 = [(otherName, kws)]) ∧
      Cli.extract_keywords [] = Except.error Cli.PyErr.indexError := by
  refine ⟨fun cats => rfl, ?_, rfl⟩
  intro kws hne
  match kws with
  | [] => exact absurd rfl hne
  | kw :: rest =>
    rw [App.cluster_keywords]
    rw [List.foldl_cons,
      show App.assignStep [] ⟨[], [], []⟩ kw = ⟨[(otherName, [kw])], [], []⟩ by
        simp [App.assignStep, App.scanCategories, App.updateBucket],
      App.foldl_other]
    simp

/-- Witness for C7 (amended) at a concrete non-empty keyword list. -/
theorem claim_c7_no_empty_validation_witness :
    (App.cluster_keywords ["b".data] []).1 = [(otherName, ["b".data])] :=
  claim_c7_no_empty_validation.2.1 ["b".data] (by decide)

/-- Counterexample to C8 as stated: an empty keyword string does not always
fail to match — a rule whose pattern accepts the empty string (here `x*`)
captures it, so the empty keyword lands in that category, not in `Other`. -/
theorem claim_c8_counterexample :
    (App.cluster_keywords [[]]
        [("A".data, [App.Pat.re (Regex.star (Regex.char 'x'))])]).1
      = [("A".data, [[]])] ∧ "A".data ≠ otherName :=
  ⟨rfl, by decide⟩

/-- Claim C8 (amended): an empty keyword string is legal input, and it is
placed in `Other` provided no rule of the category set matches the empty
string (a pattern accepting the empty string captures it instead). -/
theorem claim_c8_empty_keyword (cats : App.Categories)
    (h : ∀ c ∈ cats, App.matchesCat c.2 [] = false) :
    (App.cluster_keywords [[]] cats).1 = [(otherName, [[]])] := by
  have hnone : (App.scanCategories [] cats).1 = none :=
    (App.scanCategories_fst_none [] cats).2 h
  simp [App.cluster_keywords, App.assignStep, pyLower, hnone, App.updateBucket]

/-- Witness for C8 (amended) at a concrete category set whose single rule
requires a character. -/
theorem claim_c8_empty_keyword_witness :
    (App.cluster_keywords [[]] [("A".data, [App.Pat.re (Regex.char 'a')])]).1
      = [(otherName, [[]])] :=
  claim_c8_empty_keyword _ (by decide)

/-- Counterexample to C1 as stated: the CLI similarity path deduplicates
keyword strings through the `keyword_tokens` dict, so a duplicated keyword
is not reproduced as a multiset — of `['a', 'a']` only one occurrence
survives. -/
theorem claim_c1_counterexample :
    ¬ ((((Cli.similarity_cluster_keywords ["a".data, "a".data] (6/10)).1).flatten) ~
        ["a".data, "a".data]) := by
  intro hp
  have hlen := hp.length_eq
  rw [show (((Cli.similarity_cluster_keywords ["a".data, "a".data] (6/10)).1).flatten)
      = ["a".data] from rfl] at hlen
  simp at hlen

/-- Claim C1 (amended): the partition property holds for `app.py`'s rule
matcher on every keyword list, duplicates included; the CLI's semantic and
similarity clustering satisfy it for keyword lists without duplicate
strings (the CLI collapses duplicate keyword strings: the semantic path
through its `assigned` set, the similarity path through its dict keys). -/
theorem claim_c1_partition :
    (∀ (kws : List Kw) (cats : App.Categories),
        App.flattenClusters (App.cluster_keywords kws cats).1 ~ kws) ∧
      (∀ (cats : List (Cli.Name × List Regex)) (kws : List Kw), kws.Nodup →
        ((Cli.semantic_cluster_keywords cats kws).1).flatten ~ kws) ∧
      (∀ (kws : List Kw) (t : ℚ), kws.Nodup →
        ((Cli.similarity_cluster_keywords kws t).1).flatten ~ kws) :=
  ⟨App.cluster_keywords_flatten, Cli.semantic_flatten, Cli.similarity_flatten⟩

/-- Witness for C1 (amended) at concrete inputs — duplicates for the app
path, duplicate-free lists for the two CLI paths. -/
theorem claim_c1_partition_witness :
    App.flattenClusters (App.cluster_keywords ["a".data, "a".data]
        [("A".data, [App.Pat.re (Regex.char 'a')])]).1 ~ ["a".data, "a".data] ∧
      ((Cli.semantic_cluster_keywords [("A".data, [Regex.char 'a'])]
          ["a".data, "b".data]).1).flatten ~ ["a".data, "b".data] ∧
      ((Cli.similarity_cluster_keywords ["a".data] (6/10)).1).flatten ~ ["a".data] :=
  ⟨claim_c1_partition.1 _ _, claim_c1_partition.2.1 _ _ (by decide),
    claim_c1_partition.2.2 _ _ (by decide)⟩

/-- Counterexample to C6 as stated: the app's summary is ordered
alphabetically by basket name, not by declaration order with `Other` last —
with the single declared category `Zzz`, the summary rows are `Other` then
`Zzz`. -/
theorem claim_c6_counterexample :
    ((App.summary_data (App.cluster_keywords ["a".data, "b".data]
        [("Zzz".data, [App.Pat.re (Regex.char 'a')])]).1).map Prod.fst)
      = [otherName, "Zzz".data] ∧ otherName ≠ "Zzz".data :=
  ⟨by decide, by decide⟩

/-- Claim C6 (amended): only the CLI semantic path orders baskets by
category declaration order with `Other` last; `app.py`'s summary (whose
sorted items also feed the CSV export) orders baskets alphabetically by
name, `Other` included at its alphabetical position. -/
theorem claim_c6_basket_order :
    (∀ cs : App.Clusters, List.Sorted (· ≤ ·) ((App.summary_data cs).map Prod.fst)) ∧
      (∀ (cats : List (Cli.Name × List Regex)) (kws : List Kw),
        ∃ S, S <+ cats.map Prod.fst ∧
          ((Cli.baskets (Cli.semantic_cluster_keywords cats kws)).map Prod.fst = S ∨
            (Cli.baskets (Cli.semantic_cluster_keywords cats kws)).map Prod.fst
              = S ++ [otherName])) := by
  refine ⟨App.summary_data_sorted, fun cats kws => ?_⟩
  refine ⟨(Cli.semLoop cats kws []).1.map Prod.fst,
    Cli.semLoop_names_sublist cats kws [], ?_⟩
  rw [Cli.baskets_semantic, List.map_append]
  by_cases ho : (kws.filter fun kw =>
      decide (kw ∉ (Cli.semLoop cats kws []).2.2)).isEmpty = true
  · left
    simp only [ho]
    simp
  · right
    have ho' : (kws.filter fun kw =>
        decide (kw ∉ (Cli.semLoop cats kws []).2.2)).isEmpty = false := by simpa using ho
    simp only [ho', Bool.false_eq_true, if_false]
    simp

namespace App

theorem rules_priority_never (pre mid post : Categories) (ni nj : Name)
    (psi psj : List Pat) (kws : List Kw) (kw : Kw)
    (hnd : ((pre ++ (ni, psi) :: (mid ++ (nj, psj) :: post)).map Prod.fst).Nodup)
    (hmi : matchesCat psi (pyLower kw) = true) :
    kw ∉ getBucket (cluster_keywords kws
      (pre ++ (ni, psi) :: (mid ++ (nj, psj) :: post))).1 nj := by
  rw [cluster_keywords_getBucket]
  intro hmem
  have h2 := (List.mem_filter.1 hmem).2
  have hass : assignName (pre ++ (ni, psi) :: (mid ++ (nj, psj) :: post)) kw = nj := by
    simpa using h2
  cases hs : (scanCategories (pyLower kw) (pre ++ (ni, psi) :: (mid ++ (nj, psj) :: post))).1 with
  | none =>
    have hf := (scanCategories_fst_none _ _).1 hs (ni, psi) (by simp)
    rw [hmi] at hf
    exact Bool.true_eq_false ▸ hf
  | some m =>
    have hm : m = nj := by
      unfold assignName at hass
      rw [hs] at hass
      simpa using hass
    have hmem2 := scanCategories_fst_mem (pyLower kw) pre ni psi
      (mid ++ (nj, psj) :: post) hmi m hs
    have hnames : (pre ++ (ni, psi) :: (mid ++ (nj, psj) :: post)).map Prod.fst
        = (pre.map Prod.fst ++ [ni]) ++
          (mid.map Prod.fst ++ nj :: post.map Prod.fst) := by simp
    rw [hnames] at hnd
    have hdisj := List.disjoint_of_nodup_append hnd
    exact hdisj (hm ▸ hmem2) (by simp)

theorem rules_priority_first (pre rest : Categories) (ni : Name) (psi : List Pat)
    (kws : List Kw) (kw : Kw)
    (hpre : ∀ c ∈ pre, matchesCat c.2 (pyLower kw) = false)
    (hmi : matchesCat psi (pyLower kw) = true) (hkw : kw ∈ kws) :
    kw ∈ getBucket (cluster_keywords kws (pre ++ (ni, psi) :: rest)).1 ni := by
  rw [cluster_keywords_getBucket, List.mem_filter]
  refine ⟨hkw, ?_⟩
  have hs : (scanCategories (pyLower kw) (pre ++ (ni, psi) :: rest)).1 = some ni := by
    rw [scanCategories_fst_append_nomatch _ _ _ hpre,
      scanCategories_fst_cons_match _ _ _ _ hmi]
  simp [assignName, hs]

end App

namespace Cli

theorem semLoop_cons_assigned (n : Name) (ps : List Regex)
    (rest : List (Name × List Regex)) (kws a : List Kw) :
    (semLoop ((n, ps) :: rest) kws a).2.2 = (semLoop rest kws (catPass ps kws a).2).2.2 := by
  by_cases hm : (catPass ps kws a).1.isEmpty = true <;> simp [semLoop, hm]

theorem semLoop_assigned_mono (cats : List (Name × List Regex)) (kws a : List Kw)
    (x : Kw) (hx : x ∈ a) : x ∈ (semLoop cats kws a).2.2 := by
  rw [semLoop_assigned]
  exact List.mem_append_left _ hx

theorem semLoop_cons_mem (n : Name) (ps : List Regex)
    (rest : List (Name × List Regex)) (kws a : List Kw)
    (h : (catPass ps kws a).1 ≠ []) :
    (n, (catPass ps kws a).1) ∈ (semLoop ((n, ps) :: rest) kws a).1 := by
  have hm : (catPass ps kws a).1.isEmpty = false := by
    cases he : (catPass ps kws a).1 with
    | nil => exact absurd he h
    | cons x xs => simp [he]
  simp [semLoop, hm]

theorem kw_in_head_assigned (ps : List Regex) (kws aPre : List Kw) (kw : Kw)
    (hmi : matchesCatR ps kw = true) (hkw : kw ∈ kws) :
    kw ∈ (catPass ps kws aPre).2 := by
  by_cases ha : kw ∈ aPre
  · exact catPass_assigned_mono _ _ _ _ ha
  · rw [catPass_assigned]
    exact List.mem_append_right _ (catPass_mem _ _ _ _ hkw ha hmi)

theorem sem_priority_never (pre mid post : List (Name × List Regex)) (ni nj : Name)
    (psi psj : List Regex) (kws : List Kw) (kw : Kw)
    (hnd : ((pre ++ (ni, psi) :: (mid ++ (nj, psj) :: post)).map Prod.fst).Nodup)
    (hmi : matchesCatR psi kw = true) :
    ∀ ms, (nj, ms) ∈ baskets (semantic_cluster_keywords
      (pre ++ (ni, psi) :: (mid ++ (nj, psj) :: post)) kws) → kw ∉ ms := by
  have hcats : pre ++ (ni, psi) :: (mid ++ (nj, psj) :: post)
      = (pre ++ (ni, psi) :: mid) ++ ((nj, psj) :: post) := by simp
  rw [hcats] at hnd ⊢
  rw [List.map_append] at hnd
  have hdisj := List.disjoint_of_nodup_append hnd
  have hnj : nj ∉ (pre ++ (ni, psi) :: mid).map Prod.fst := fun hin => hdisj hin (by simp)
  intro ms hmem hkwms
  -- the assigned set after the first segment contains kw whenever kw ∈ kws
  have hassign : kw ∈ kws →
      kw ∈ (semLoop (pre ++ (ni, psi) :: mid) kws []).2.2 := by
    intro hkw
    rw [(semLoop_append pre ((ni, psi) :: mid) kws []).2, semLoop_cons_assigned]
    exact semLoop_assigned_mono _ _ _ _
      (kw_in_head_assigned psi kws _ kw hmi hkw)
  rw [baskets_semantic] at hmem
  rcases List.mem_append.1 hmem with hnamed | hother
  · rw [(semLoop_append (pre ++ (ni, psi) :: mid) ((nj, psj) :: post) kws []).1] at hnamed
    rcases List.mem_append.1 hnamed with hleft | hright
    · -- a basket named nj cannot come from the first segment: its name is not there
      have : nj ∈ ((semLoop (pre ++ (ni, psi) :: mid) kws []).1.map Prod.fst) :=
        List.mem_map_of_mem Prod.fst hleft
      exact hnj ((semLoop_names_sublist _ _ _).subset this)
    · by_cases hkw : kw ∈ kws
      · exact semLoop_skip _ _ _ kw (hassign hkw) nj ms hright hkwms
      · obtain ⟨ps, -, hall⟩ := semLoop_named_from _ _ _ nj ms hright
        exact hkw (hall kw hkwms).1
  · by_cases ho : (kws.filter fun k =>
        decide (k ∉ (semLoop ((pre ++ (ni, psi) :: mid) ++ (nj, psj) :: post) kws []).2.2)).isEmpty
        = true
    · rw [if_pos ho] at hother
      simp at hother
    · rw [if_neg ho] at hother
      have hms : ms = kws.filter fun k =>
          decide (k ∉ (semLoop ((pre ++ (ni, psi) :: mid) ++ (nj, psj) :: post) kws []).2.2) := by
        have := List.mem_singleton.1 hother
        exact congrArg Prod.snd this
      rw [hms] at hkwms
      have hk2 := List.mem_filter.1 hkwms
      have hkw : kw ∈ kws := hk2.1
      have hnotass := of_decide_eq_true hk2.2
      exact hnotass (by
        rw [(semLoop_append (pre ++ (ni, psi) :: mid) ((nj, psj) :: post) kws []).2]
        exact semLoop_assigned_mono _ _ _ _ (hassign hkw))

theorem sem_priority_first (pre rest : List (Name × List Regex)) (ni : Name)
    (psi : List Regex) (kws : List Kw) (kw : Kw)
    (hpre : ∀ c ∈ pre, matchesCatR c.2 kw = false)
    (hmi : matchesCatR psi kw = true) (hkw : kw ∈ kws) :
    ∃ ms, (ni, ms) ∈ baskets (semantic_cluster_keywords (pre ++ (ni, psi) :: rest) kws) ∧
      kw ∈ ms := by
  have hnotin : kw ∉ (semLoop pre kws []).2.2 := by
    intro hin
    obtain ⟨-, c, hc, hmc⟩ := semLoop_assigned_sub pre kws kw hin
    rw [hpre c hc] at hmc
    exact Bool.false_ne_true hmc
  have hpass : kw ∈ (catPass psi kws (semLoop pre kws []).2.2).1 :=
    catPass_mem _ _ _ _ hkw hnotin hmi
  refine ⟨(catPass psi kws (semLoop pre kws []).2.2).1, ?_, hpass⟩
  rw [baskets_semantic]
  apply List.mem_append_left
  rw [(semLoop_append pre ((ni, psi) :: rest) kws []).1]
  apply List.mem_append_right
  exact semLoop_cons_mem ni psi rest kws _ (by
    intro he
    rw [he] at hpass
    simp at hpass)

end Cli

/-- Claim C2: a keyword that matches rules of the categories at positions
i and j with i before j is never assigned to the category at position j;
and when no category before position i matches it, it is assigned to the
category at position i.  Proved for `app.py`'s rule matcher and for the
CLI's semantic matcher, for category sets with distinct names. -/
theorem claim_c2_priority :
    (∀ (pre mid post : App.Categories) (ni nj : App.Name)
        (psi psj : List App.Pat) (kws : List Kw) (kw : Kw),
        ((pre ++ (ni, psi) :: (mid ++ (nj, psj) :: post)).map Prod.fst).Nodup →
        App.matchesCat psi (pyLower kw) = true →
        App.matchesCat psj (pyLower kw) = true →
        kw ∉ App.getBucket (App.cluster_keywords kws
            (pre ++ (ni, psi) :: (mid ++ (nj, psj) :: post))).1 nj ∧
          ((∀ c ∈ pre, App.matchesCat c.2 (pyLower kw) = false) → kw ∈ kws →
            kw ∈ App.getBucket (App.cluster_keywords kws
              (pre ++ (ni, psi) :: (mid ++ (nj, psj) :: post))).1 ni)) ∧
      (∀ (pre mid post : List (Cli.Name × List Regex)) (ni nj : Cli.Name)
        (psi psj : List Regex) (kws : List Kw) (kw : Kw),
        ((pre ++ (ni, psi) :: (mid ++ (nj, psj) :: post)).map Prod.fst).Nodup →
        Cli.matchesCatR psi kw = true →
        Cli.matchesCatR psj kw = true →
        (∀ ms, (nj, ms) ∈ Cli.baskets (Cli.semantic_cluster_keywords
            (pre ++ (ni, psi) :: (mid ++ (nj, psj) :: post)) kws) → kw ∉ ms) ∧
          ((∀ c ∈ pre, Cli.matchesCatR c.2 kw = false) → kw ∈ kws →
            ∃ ms, (ni, ms) ∈ Cli.baskets (Cli.semantic_cluster_keywords
              (pre ++ (ni, psi) :: (mid ++ (nj, psj) :: post)) kws) ∧ kw ∈ ms)) := by
  constructor
  · intro pre mid post ni nj psi psj kws kw hnd hmi _
    exact ⟨App.rules_priority_never pre mid post ni nj psi psj kws kw hnd hmi,
      fun hpre hkw => App.rules_priority_first pre _ ni psi kws kw hpre hmi hkw⟩
  · intro pre mid post ni nj psi psj kws kw hnd hmi _
    exact ⟨Cli.sem_priority_never pre mid post ni nj psi psj kws kw hnd hmi,
      fun hpre hkw => Cli.sem_priority_first pre _ ni psi kws kw hpre hmi hkw⟩

/-- Witness for C2: the keyword `a` matches the single rule of both
categories `A` and `B`; it lands in `A`, never in `B`, in both matchers. -/
theorem claim_c2_priority_witness :
    ("a".data ∉ App.getBucket (App.cluster_keywords ["a".data]
        [("A".data, [App.Pat.re (Regex.char 'a')]),
          ("B".data, [App.Pat.re (Regex.char 'a')])]).1 "B".data ∧
      "a".data ∈ App.getBucket (App.cluster_keywords ["a".data]
        [("A".data, [App.Pat.re (Regex.char 'a')]),
          ("B".data, [App.Pat.re (Regex.char 'a')])]).1 "A".data) ∧
      ((∀ ms, ("B".data, ms) ∈ Cli.baskets (Cli.semantic_cluster_keywords
          [("A".data, [Regex.char 'a']), ("B".data, [Regex.char 'a'])]
          ["a".data]) → "a".data ∉ ms) ∧
        ∃ ms, ("A".data, ms) ∈ Cli.baskets (Cli.semantic_cluster_keywords
          [("A".data, [Regex.char 'a']), ("B".data, [Regex.char 'a'])]
          ["a".data]) ∧ "a".data ∈ ms) := by
  have happ := claim_c2_priority.1 [] [] [] "A".data "B".data
    [App.Pat.re (Regex.char 'a')] [App.Pat.re (Regex.char 'a')] ["a".data] "a".data
    (by decide) (by decide) (by decide)
  have hcli := claim_c2_priority.2 [] [] [] "A".data "B".data
    [Regex.char 'a'] [Regex.char 'a'] ["a".data] "a".data
    (by decide) (by decide) (by decide)
  exact ⟨⟨happ.1, happ.2 (by simp) (by simp)⟩, hcli.1, hcli.2 (by simp) (by simp)⟩

section SanityChecks

example : reSearch (lit "belt".data) "leather belt".data = true := by decide
example : reSearch (lit "belt".data) "dirndl".data = false := by decide
example : reSearch (.star (.char 'x')) [] = true := by decide
example : reSearch (.seq (.char 'a') (.nlk (.char 'b'))) "ab".data = false := by decide
example : reSearch (.seq (.char 'a') (.nlk (.char 'c'))) "ab".data = true := by decide
example :
    reSearch (.seq (lit "oktoberfest".data) (.nlk (.seq (.star .dot) (lit "shirt".data))))
      (pyLower "oktoberfest shirt men".data) = false := by decide
example : Cli.tokenize "Red-Car red".data = Cli.tokenize "red car".data := by decide
example :
    Cli.jaccard_similarity (Cli.tokenize "red car".data) (Cli.tokenize "red bus".data)
      = 1 / 3 := by
  have h1 : (Cli.tokenize "red car".data ∩ Cli.tokenize "red bus".data).card = 1 := by decide
  have h2 : (Cli.tokenize "red car".data).card = 2 := by decide
  have h3 : (Cli.tokenize "red bus".data).card = 2 := by decide
  rw [Cli.jaccard_similarity, h1, h2, h3]
  norm_num

end SanityChecks
